import Mathlib

/-!
Verification of the Chrono interior-point solver and CSR sparse-matrix engine.

The development shallowly embeds the relevant routines of
`src/chrono_mumps/ChInteriorPoint.cpp`, `src/chrono_interiorpoint/ChInteriorPoint.h`
and the CSR3 / sparsity-learner header.  `double` arithmetic is modelled by `ℚ`
(exact arithmetic); the two-norm, which needs a square root, is modelled over `ℝ`.
Dense column vectors are `List ℚ`; sparse matrices appearing only through their
mat-vec action are `List (List ℚ)` (list of rows).  The external direct linear
solver (MUMPS) is modelled as an oracle: the solution vector it writes into
`rhs_sol` is a parameter.
-/

namespace Chrono

/-! ### Dense vector helpers (ChMatrixDynamic column vectors) -/

/-- Dot product `a.MatrDot(&a, &b)` of two dense vectors. -/
def dot (a b : List ℚ) : ℚ := ((a.zip b).map fun p => p.1 * p.2).sum

/-- Componentwise sum, `a += b`. -/
def vadd (a b : List ℚ) : List ℚ := a.zipWith (· + ·) b

/-- Componentwise difference, `a -= b`. -/
def vsub (a b : List ℚ) : List ℚ := a.zipWith (· - ·) b

/-- `MatrScale`: multiply every component by a scalar. -/
def vscale (c : ℚ) (a : List ℚ) : List ℚ := a.map (fun t => c * t)

/-- Matrix-vector product; a matrix is a list of rows.  This models the
`MatMultiplyClipped` calls through which `multiplyA`, `multiplyG` and
`multiplyNegAT` apply a block of `BigMat` to a dense vector. -/
def matVec (A : List (List ℚ)) (x : List ℚ) : List ℚ := A.map (fun row => dot row x)

/-- Sum of squares of the components (the square of `NormTwo`). -/
def sumSq (v : List ℚ) : ℚ := (v.map fun t => t * t).sum

/-! ### `ChInteriorPoint::find_Newton_step_length`

```cpp
double alpha = 1;
for (size_t row_sel = 0; row_sel < vect.GetRows(); row_sel++)
    if (Dvect(row_sel,0)<0) {
        double alfa_temp = -eta * vect(row_sel,0) / Dvect(row_sel,0);
        if (alfa_temp < alpha) alpha = alfa_temp;
    }
return (alpha>0) ? alpha : 0;
```
-/

/-- The candidate step bound `-eta * vect_i / Dvect_i` computed inside the loop. -/
def stepBound (eta : ℚ) (p : ℚ × ℚ) : ℚ := -eta * p.1 / p.2

/-- One pass of the loop body of `find_Newton_step_length`. -/
def stepFold (eta : ℚ) (alpha : ℚ) (p : ℚ × ℚ) : ℚ :=
  if p.2 < 0 then (if stepBound eta p < alpha then stepBound eta p else alpha) else alpha

/-- `ChInteriorPoint::find_Newton_step_length(vect, Dvect, eta)`.  The default
argument `eta = 1` of the source is passed explicitly at call sites. -/
def find_Newton_step_length (vect Dvect : List ℚ) (eta : ℚ) : ℚ :=
  if (vect.zip Dvect).foldl (stepFold eta) 1 > 0 then
    (vect.zip Dvect).foldl (stepFold eta) 1
  else 0

/-- Closed form of the loop of `find_Newton_step_length`: the minimum of `1`
and the bounds `-eta*v_i/Dv_i` over the components with `Dv_i < 0`, clamped
below at `0`.  Note the factor `eta` sits inside the minimum, before the cap. -/
def newtonStepFormula (vect Dvect : List ℚ) (eta : ℚ) : ℚ :=
  max 0 ((((vect.zip Dvect).filter fun p => decide (p.2 < 0)).map (stepBound eta)).foldr min 1)

theorem foldr_min_comm (l : List ℚ) (a b : ℚ) :
    l.foldr min (min b a) = min b (l.foldr min a) := by
  induction l with
  | nil => rfl
  | cons x t ih =>
      simp only [List.foldr_cons, ih]
      rw [min_left_comm]

theorem stepFold_foldl_eq (eta : ℚ) (l : List (ℚ × ℚ)) (a : ℚ) :
    l.foldl (stepFold eta) a =
      ((l.filter fun p => decide (p.2 < 0)).map (stepBound eta)).foldr min a := by
  induction l generalizing a with
  | nil => rfl
  | cons p t ih =>
      by_cases hneg : p.2 < 0
      · have hstep : stepFold eta a p = min (stepBound eta p) a := by
          unfold stepFold
          rcases lt_trichotomy (stepBound eta p) a with h | h | h
          · simp [hneg, h, min_eq_left h.le]
          · simp [hneg, h, min_self]
          · simp [hneg, not_lt.mpr h.le, min_eq_right h.le]
        have hf : (p :: t).filter (fun q => decide (q.2 < 0)) =
            p :: t.filter (fun q => decide (q.2 < 0)) := by
          simp [List.filter_cons, hneg]
        rw [List.foldl_cons, hstep, ih, hf, List.map_cons, List.foldr_cons]
        exact foldr_min_comm _ _ _
      · have hstep : stepFold eta a p = a := by unfold stepFold; simp [hneg]
        have hf : (p :: t).filter (fun q => decide (q.2 < 0)) =
            t.filter (fun q => decide (q.2 < 0)) := by
          simp [List.filter_cons, hneg]
        rw [List.foldl_cons, hstep, ih, hf]

/-- `find_Newton_step_length` computes `newtonStepFormula`. -/
theorem find_Newton_step_length_eq (vect Dvect : List ℚ) (eta : ℚ) :
    find_Newton_step_length vect Dvect eta = newtonStepFormula vect Dvect eta := by
  unfold find_Newton_step_length newtonStepFormula
  rw [stepFold_foldl_eq]
  set F := ((((vect.zip Dvect).filter fun p => decide (p.2 < 0)).map (stepBound eta)).foldr min 1)
  rcases le_or_lt F 0 with h | h
  · rw [if_neg (not_lt.mpr h), max_eq_left h]
  · rw [if_pos h, max_eq_right h.le]

theorem foldr_min_le_init (l : List ℚ) (a : ℚ) : l.foldr min a ≤ a := by
  induction l with
  | nil => exact le_rfl
  | cons x t ih => exact le_trans (min_le_right _ _) ih

theorem foldr_min_le_mem {l : List ℚ} {x : ℚ} (hx : x ∈ l) (a : ℚ) :
    l.foldr min a ≤ x := by
  induction l with
  | nil => cases hx
  | cons y t ih =>
      rcases List.mem_cons.mp hx with rfl | hx'
      · exact min_le_left _ _
      · exact le_trans (min_le_right _ _) (ih hx')

/-- The returned step length is never negative. -/
theorem find_Newton_step_length_nonneg (vect Dvect : List ℚ) (eta : ℚ) :
    0 ≤ find_Newton_step_length vect Dvect eta := by
  rw [find_Newton_step_length_eq]; exact le_max_left _ _

/-- The returned step length never exceeds `1`. -/
theorem find_Newton_step_length_le_one (vect Dvect : List ℚ) (eta : ℚ) :
    find_Newton_step_length vect Dvect eta ≤ 1 := by
  rw [find_Newton_step_length_eq]
  exact max_le (by norm_num) (foldr_min_le_init _ _)

/-- When the returned step length is positive it is bounded by every candidate
`-eta * v_i / Dv_i` with `Dv_i < 0`. -/
theorem find_le_stepBound {vect Dvect : List ℚ} {eta : ℚ} {p : ℚ × ℚ}
    (hp : p ∈ vect.zip Dvect) (hneg : p.2 < 0)
    (hpos : 0 < find_Newton_step_length vect Dvect eta) :
    find_Newton_step_length vect Dvect eta ≤ stepBound eta p := by
  rw [find_Newton_step_length_eq] at hpos ⊢
  unfold newtonStepFormula at hpos ⊢
  set M := ((((vect.zip Dvect).filter fun q => decide (q.2 < 0)).map (stepBound eta)).foldr min 1)
  have hmem : stepBound eta p ∈
      ((vect.zip Dvect).filter fun q => decide (q.2 < 0)).map (stepBound eta) :=
    List.mem_map_of_mem _ (List.mem_filter.mpr ⟨hp, by simpa using hneg⟩)
  have hMle : M ≤ stepBound eta p := foldr_min_le_mem hmem 1
  rcases le_or_lt M 0 with h | h
  · rw [max_eq_left h] at hpos; exact absurd hpos (lt_irrefl 0)
  · rw [max_eq_right h.le]; exact hMle

/-- Key positivity property: a step of size at most `find_Newton_step_length`
taken with `eta < 1` keeps a componentwise-positive vector positive. -/
theorem step_update_pos {vect Dvect : List ℚ} {eta a : ℚ}
    (heta : eta < 1) (hv : ∀ x ∈ vect, 0 < x) (ha0 : 0 ≤ a)
    (har : a ≤ find_Newton_step_length vect Dvect eta) :
    ∀ q ∈ vect.zipWith (fun x d => x + a * d) Dvect, 0 < q := by
  intro q hq
  obtain ⟨i, hi, hqi⟩ := List.mem_iff_getElem.mp hq
  have hia : i < vect.length := by
    simp only [List.length_zipWith, lt_min_iff] at hi; exact hi.1
  have hib : i < Dvect.length := by
    simp only [List.length_zipWith, lt_min_iff] at hi; exact hi.2
  rw [List.getElem_zipWith] at hqi
  rw [← hqi]
  have hvpos : 0 < vect[i] := hv _ (List.getElem_mem hia)
  rcases lt_or_le Dvect[i] 0 with hneg | hpos
  · rcases eq_or_lt_of_le ha0 with ha | ha
    · subst ha; simpa using hvpos
    · have hfpos : 0 < find_Newton_step_length vect Dvect eta := lt_of_lt_of_le ha har
      have hmem : (vect[i], Dvect[i]) ∈ vect.zip Dvect := by
        apply List.mem_iff_getElem.mpr
        refine ⟨i, by simp only [List.length_zip, lt_min_iff]; exact ⟨hia, hib⟩, ?_⟩
        rw [List.getElem_zip]
      have hat : a ≤ stepBound eta (vect[i], Dvect[i]) :=
        le_trans har (find_le_stepBound hmem hneg hfpos)
      have hd0 : Dvect[i] ≠ 0 := ne_of_lt hneg
      have htd : stepBound eta (vect[i], Dvect[i]) * Dvect[i] = -eta * vect[i] := by
        unfold stepBound
        field_simp
      have hml : stepBound eta (vect[i], Dvect[i]) * Dvect[i] ≤ a * Dvect[i] :=
        mul_le_mul_of_nonpos_right hat (le_of_lt hneg)
      nlinarith [mul_pos (sub_pos.mpr heta) hvpos]
  · have : 0 ≤ a * Dvect[i] := mul_nonneg ha0 hpos
    linarith

/-! ### The corrector update of `ChInteriorPoint::iterate` (chrono_mumps, lines 386-400)

```cpp
double alfa_corr_prim = find_Newton_step_length(y, Dy, eta);
double alfa_corr_dual = find_Newton_step_length(lam, Dlam, eta);
if (EQUAL_STEP_LENGTH) { double alfa_corr = std::min(...); ... }
y_corr = Dy; y_corr.MatrScale(alfa_corr_prim); y_corr += y; y = y_corr;
lam_corr = Dlam; lam_corr.MatrScale(alfa_corr_dual); lam_corr += lam; lam = lam_corr;
```
-/

/-- The primal corrector step length, after the optional `EQUAL_STEP_LENGTH` min. -/
def alfa_corr_prim (equalStepLength : Bool) (y lam Dy Dlam : List ℚ) (eta : ℚ) : ℚ :=
  if equalStepLength then
    min (find_Newton_step_length y Dy eta) (find_Newton_step_length lam Dlam eta)
  else find_Newton_step_length y Dy eta

/-- The dual corrector step length, after the optional `EQUAL_STEP_LENGTH` min. -/
def alfa_corr_dual (equalStepLength : Bool) (y lam Dy Dlam : List ℚ) (eta : ℚ) : ℚ :=
  if equalStepLength then
    min (find_Newton_step_length y Dy eta) (find_Newton_step_length lam Dlam eta)
  else find_Newton_step_length lam Dlam eta

/-- The slack vector after the corrector update `y = y + alfa_corr_prim * Dy`. -/
def y_corr (equalStepLength : Bool) (y lam Dy Dlam : List ℚ) (eta : ℚ) : List ℚ :=
  y.zipWith (fun v d => v + alfa_corr_prim equalStepLength y lam Dy Dlam eta * d) Dy

/-- The multiplier vector after the corrector update `lam = lam + alfa_corr_dual * Dlam`. -/
def lam_corr (equalStepLength : Bool) (y lam Dy Dlam : List ℚ) (eta : ℚ) : List ℚ :=
  lam.zipWith (fun v d => v + alfa_corr_dual equalStepLength y lam Dy Dlam eta * d) Dlam

/-! ### Interior-point state and `fullupdate_residual`

State carried by `ChInteriorPoint` between phases: primal `x`, slack `y`,
multipliers `lam`, residuals `rp`, `rd` and the complementarity measure `mu`.
The problem data are the blocks of `BigMat`: `G`, `A` and the stored `-Aᵀ`
block (written `negAT`), plus the vectors `b`, `c`.  Compile-time flags of the
source: `ADD_COMPLIANCE` is `false`, so the `E` terms of `fullupdate_residual`
are absent; `REUSE_OLD_SOLUTIONS` is `false`, so `x` and `lam` are always
refilled with ones in `starting_point_Nocedal`. -/

structure IPState where
  x : List ℚ
  y : List ℚ
  lam : List ℚ
  rp : List ℚ
  rd : List ℚ
  mu : ℚ

/-- `ChInteriorPoint::fullupdate_residual`: `rp = A*x - y - b`,
`rd = (G*x + c) + (-Aᵀ)*lam`, `mu = yᵀlam / m`. -/
def fullupdate_residual (G A negAT : List (List ℚ)) (b c : List ℚ) (m : ℕ)
    (s : IPState) : IPState :=
  { s with
    rp := vsub (vsub (matVec A s.x) s.y) b
    rd := vadd (vadd (matVec G s.x) c) (matVec negAT s.lam)
    mu := dot s.y s.lam / (m : ℚ) }

/-- Extraction of `Dlam` from the AUGMENTED KKT solution vector (rows `n..n+m-1`
of `rhs_sol` after the external solver ran; the solver output is the oracle
argument `sol`). -/
def KKT_Dlam (n : ℕ) (sol : List ℚ) : List ℚ := sol.drop n

/-- `Dy = A*Dx + rp` as recomputed after the AUGMENTED KKT solve, where
`Dx` is rows `0..n-1` of the solution vector. -/
def KKT_Dy (A : List (List ℚ)) (n : ℕ) (rp sol : List ℚ) : List ℚ :=
  vadd (matVec A (sol.take n)) rp

/-- The state reached inside `starting_point_Nocedal` after the initial guess
`x = 1`, `lam = 1`, `y = A*x - b` and the first `fullupdate_residual()`
(`REUSE_OLD_SOLUTIONS` is `false`, so the fills are unconditional). -/
def nocedal_state1 (G A negAT : List (List ℚ)) (b c : List ℚ) (n m : ℕ) : IPState :=
  fullupdate_residual G A negAT b c m
    { x := List.replicate n (1 : ℚ)
      y := vsub (matVec A (List.replicate n (1 : ℚ))) b
      lam := List.replicate m (1 : ℚ)
      rp := [], rd := [], mu := 0 }

/-- `y` after the affine solve (`y += Dy`) and the clamp
`y(row) = abs(y(row)) < 1 ? 1 : abs(y(row))`. -/
def nocedal_y_clamped (G A negAT : List (List ℚ)) (b c : List ℚ) (n m : ℕ)
    (sol : List ℚ) : List ℚ :=
  (vadd (nocedal_state1 G A negAT b c n m).y
      (KKT_Dy A n (nocedal_state1 G A negAT b c n m).rp sol)).map
    (fun t => if |t| < 1 then 1 else |t|)

/-- `lam` after the affine solve (`lam += Dlam`) and the clamp. -/
def nocedal_lam_clamped (G A negAT : List (List ℚ)) (b c : List ℚ) (n m : ℕ)
    (sol : List ℚ) : List ℚ :=
  (vadd (nocedal_state1 G A negAT b c n m).lam (KKT_Dlam n sol)).map
    (fun t => if |t| < 1 then 1 else |t|)

/-- `ChInteriorPoint::starting_point_Nocedal` (chrono_mumps, lines 302-336):
fill `x` and `lam` with ones, set `y = A*x - b`, full residual update, affine
KKT solve with `sigma = 0` (external solution `sol`), `y += Dy`, `lam += Dlam`,
clamp both componentwise, and recompute the residuals. -/
def starting_point_Nocedal (G A negAT : List (List ℚ)) (b c : List ℚ) (n m : ℕ)
    (sol : List ℚ) : IPState :=
  fullupdate_residual G A negAT b c m
    { nocedal_state1 G A negAT b c n m with
      y := nocedal_y_clamped G A negAT b c n m sol
      lam := nocedal_lam_clamped G A negAT b c n m sol }

/-- The starting-point procedure as worded by the specification: identical
steps, with the clamp written `v_i ← max(|v_i|, 1)`. -/
def starting_point_Nocedal_spec (G A negAT : List (List ℚ)) (b c : List ℚ) (n m : ℕ)
    (sol : List ℚ) : IPState :=
  fullupdate_residual G A negAT b c m
    { nocedal_state1 G A negAT b c n m with
      y := (vadd (nocedal_state1 G A negAT b c n m).y
          (KKT_Dy A n (nocedal_state1 G A negAT b c n m).rp sol)).map (fun t => max |t| 1)
      lam := (vadd (nocedal_state1 G A negAT b c n m).lam (KKT_Dlam n sol)).map
          (fun t => max |t| 1) }

theorem clamp_eq_max (t : ℚ) : (if |t| < 1 then 1 else |t|) = max |t| 1 := by
  rcases le_or_lt 1 |t| with h | h
  · rw [if_neg (not_lt.mpr h), max_eq_left h]
  · rw [if_pos h, max_eq_right h.le]

theorem clamp_map_ge_one (l : List ℚ) :
    ∀ q ∈ l.map (fun t => if |t| < 1 then 1 else |t|), 1 ≤ q := by
  intro q hq
  obtain ⟨t, _, rfl⟩ := List.mem_map.mp hq
  rw [clamp_eq_max]
  exact le_max_right _ _

/-! ### `ChInteriorPoint::KKTsolve`, AUGMENTED branch (chrono_mumps, lines 475-521)

`BigMat` is modelled as a total function `ℕ → ℕ → ℚ` since only `SetElement`
writes and reads of single entries matter here; `SetElement` overwrites. -/

/-- `ChSparseMatrix::SetElement(r, c, v)` on the function model of `BigMat`. -/
def matSetElement (M : ℕ → ℕ → ℚ) (r c : ℕ) (v : ℚ) : ℕ → ℕ → ℚ :=
  fun i j => if i = r ∧ j = c then v else M i j

/-- The per-iteration refresh of the `(n+i, n+i)` diagonal of `BigMat` in the
AUGMENTED branch of `KKTsolve`: `y_i/lam_i`, plus `E_ii` when `ADD_COMPLIANCE`. -/
def KKT_aug_diag_update (M : ℕ → ℕ → ℚ) (n m : ℕ) (y lam Ediag : ℕ → ℚ)
    (addCompliance : Bool) : ℕ → ℕ → ℚ :=
  if addCompliance then
    (List.range m).foldl (fun M0 i => matSetElement M0 (n + i) (n + i) (y i / lam i + Ediag i)) M
  else
    (List.range m).foldl (fun M0 i => matSetElement M0 (n + i) (n + i) (y i / lam i)) M

/-- The right-hand side filled by the AUGMENTED branch of `KKTsolve`:
rows `0..n-1` get `-rd`, rows `n..n+m-1` get `-rp - y + sigma*mu/lam` when
`sigma != 0` and `-rp - y` otherwise. -/
def KKT_aug_rhs (n m : ℕ) (rd rp y lam : ℕ → ℚ) (sigma mu : ℚ) : List ℚ :=
  (List.range n).map (fun i => -rd i) ++
    (if sigma ≠ 0 then (List.range m).map (fun i => -rp i - y i + sigma * mu / lam i)
     else (List.range m).map (fun i => -rp i - y i))

theorem foldl_matSetElement_diag (M : ℕ → ℕ → ℚ) (n : ℕ) (f : ℕ → ℚ) :
    ∀ m i, i < m →
      ((List.range m).foldl (fun M0 k => matSetElement M0 (n + k) (n + k) (f k)) M)
        (n + i) (n + i) = f i := by
  intro m
  induction m with
  | zero => intro i h; omega
  | succ m ih =>
      intro i h
      rw [List.range_succ, List.foldl_append, List.foldl_cons, List.foldl_nil]
      rcases Nat.lt_or_ge i m with h' | h'
      · have hne : ¬(n + i = n + m ∧ n + i = n + m) := by omega
        show matSetElement _ (n + m) (n + m) (f m) (n + i) (n + i) = f i
        unfold matSetElement
        rw [if_neg hne]
        exact ih i h'
      · have hi : i = m := by omega
        subst hi
        show matSetElement _ (n + i) (n + i) (f i) (n + i) (n + i) = f i
        unfold matSetElement
        rw [if_pos ⟨rfl, rfl⟩]

/-! ### `ChInteriorPoint::check_exit_conditions` and `VerifyKKTconditions`

```cpp
double relative_duality_gap = y.MatrDot(&y, &lam);
VerifyKKTconditions();             // IPres.rp_nnorm = rp.NormTwo()/m; rd analogous
if (relative_duality_gap < mu_tolerance &&
    IPres.rp_nnorm < IPtolerances.rp_nnorm &&
    IPres.rd_nnorm < IPtolerances.rd_nnorm) return true;
return false;
```
(The `if (false)` branch of the source is dead code and the `only_mu`
parameter is unused in the live branch.)  The outer loop of `Solve` is
`for (it = 1; it < iteration_count_max && !check_exit_conditions(); it++)`,
so the run stops before the cap exactly when this predicate becomes true. -/

/-- `ChMatrix::NormTwo`, the Euclidean norm. -/
noncomputable def NormTwo (v : List ℚ) : ℝ := Real.sqrt ((sumSq v : ℚ) : ℝ)

/-- Tolerance fields of `ChInteriorPoint` (`IPtolerances` and `mu_tolerance`). -/
structure IPtol where
  rp_nnorm : ℚ
  rd_nnorm : ℚ
  mu_tolerance : ℚ

/-- `relative_duality_gap = y.MatrDot(&y, &lam)` — the raw duality gap. -/
def relative_duality_gap (y lam : List ℚ) : ℚ := dot y lam

/-- `IPres.rp_nnorm` as set by `VerifyKKTconditions`: `rp.NormTwo() / m`. -/
noncomputable def rp_nnorm_res (rp : List ℚ) (m : ℕ) : ℝ := NormTwo rp / (m : ℝ)

/-- `IPres.rd_nnorm` as set by `VerifyKKTconditions`: `rd.NormTwo() / n`. -/
noncomputable def rd_nnorm_res (rd : List ℚ) (n : ℕ) : ℝ := NormTwo rd / (n : ℝ)

/-- The live branch of `ChInteriorPoint::check_exit_conditions`. -/
def check_exit_conditions (y lam rp rd : List ℚ) (n m : ℕ) (tol : IPtol) : Prop :=
  ((relative_duality_gap y lam : ℚ) : ℝ) < ((tol.mu_tolerance : ℚ) : ℝ) ∧
  rp_nnorm_res rp m < ((tol.rp_nnorm : ℚ) : ℝ) ∧
  rd_nnorm_res rd n < ((tol.rd_nnorm : ℚ) : ℝ)

/-- The exit test as worded by the claim: `mu < muTol` with
`mu = (yᵀlam)/m`, together with the two residual-norm tests. -/
def check_exit_claim (y lam rp rd : List ℚ) (n m : ℕ) (tol : IPtol) : Prop :=
  ((dot y lam / (m : ℚ) : ℚ) : ℝ) < ((tol.mu_tolerance : ℚ) : ℝ) ∧
  rp_nnorm_res rp m < ((tol.rp_nnorm : ℚ) : ℝ) ∧
  rd_nnorm_res rd n < ((tol.rd_nnorm : ℚ) : ℝ)

/-! ### `ChInteriorPoint::iterate` (chrono_mumps, lines 343-414)

The two external KKT solves are modelled by oracle solution vectors `sol1`
(prediction, `sigma = 0`) and `sol2` (correction, `sigma = (mu_pred/mu)³`);
`sigma` only shapes the right-hand side handed to the solver, so it does not
appear below.  `eta` is passed as a parameter: the source computes it as
`exp(-mu*m)*0.1 + 0.9` when `ADAPTIVE_ETA` and `0.95` otherwise, and its value
is irrelevant to the control flow modelled here.  The outcome records whether
the correction phase ran: in this source it is NOT guarded by `ONLY_PREDICT`
(there is no early return, unlike the chrono_mkl variant). -/

/-- The observable outcome of one `iterate()` call. -/
structure IterOutcome where
  state : IPState
  correctorExecuted : Bool

/-- The prediction phase of `iterate()` (lines 345-378), including the
`ONLY_PREDICT` state update; without `ONLY_PREDICT` the prediction only feeds
`mu_pred` (recomputed where needed) and leaves the state unchanged. -/
def predictor_phase (onlyPredict equalStepLength : Bool) (G A : List (List ℚ))
    (n m : ℕ) (sol1 : List ℚ) (s : IPState) : IPState :=
  let Dx1 := sol1.take n
  let Dlam1 := KKT_Dlam n sol1
  let Dy1 := KKT_Dy A n s.rp sol1
  let ap0 := find_Newton_step_length s.y Dy1 1
  let ad0 := find_Newton_step_length s.lam Dlam1 1
  let ap := if equalStepLength then min ap0 ad0 else ap0
  let ad := if equalStepLength then min ap0 ad0 else ad0
  let y_pred := vadd (vscale ap Dy1) s.y
  let lam_pred := vadd (vscale ad Dlam1) s.lam
  let mu_pred := dot y_pred lam_pred / (m : ℚ)
  if onlyPredict then
    { x := vadd (vscale ap Dx1) s.x
      y := y_pred
      lam := lam_pred
      rp := vscale (1 - ap) s.rp
      rd := vadd (vscale (1 - ad) s.rd) (vscale (ap - ad) (matVec G Dx1))
      mu := mu_pred }
  else s

/-- The correction phase of `iterate()` (lines 381-413): second KKT solve,
step lengths with `eta`, state update and residual update. -/
def correction_phase (equalStepLength : Bool) (G A : List (List ℚ))
    (n m : ℕ) (eta : ℚ) (sol2 : List ℚ) (s1 : IPState) : IPState :=
  let Dx2 := sol2.take n
  let Dlam2 := KKT_Dlam n sol2
  let Dy2 := KKT_Dy A n s1.rp sol2
  let acp0 := find_Newton_step_length s1.y Dy2 eta
  let acd0 := find_Newton_step_length s1.lam Dlam2 eta
  let acp := if equalStepLength then min acp0 acd0 else acp0
  let acd := if equalStepLength then min acp0 acd0 else acd0
  let y2 := vadd (vscale acp Dy2) s1.y
  let lam2 := vadd (vscale acd Dlam2) s1.lam
  let rd2base := vscale (1 - acd) s1.rd
  { x := vadd (vscale acp Dx2) s1.x
    y := y2
    lam := lam2
    rp := vscale (1 - acp) s1.rp
    rd := if equalStepLength then rd2base
          else vadd rd2base (vscale (acp - acd) (matVec G Dx2))
    mu := dot y2 lam2 / (m : ℚ) }

/-- One `iterate()` call of the chrono_mumps source: the prediction phase is
always followed by the correction phase — the `ONLY_PREDICT` block does not
return early there. -/
def iterate_mumps (onlyPredict equalStepLength : Bool) (G A : List (List ℚ))
    (n m : ℕ) (eta : ℚ) (sol1 sol2 : List ℚ) (s : IPState) : IterOutcome :=
  { state := correction_phase equalStepLength G A n m eta sol2
      (predictor_phase onlyPredict equalStepLength G A n m sol1 s),
    correctorExecuted := true }

/-! ### `ChInteriorPoint::generate_solution` and `reset_dimensions`
(chrono_mumps, lines 580-627 and 863-884)

`sol_chrono` is modelled as a function `ℕ → ℚ` written by the loops of
`generate_solution` starting from its previous contents `sol0`, together with
its length as resized by `reset_dimensions`. -/

/-- A single write `sol_chrono(k, 0) = v` on the function model. -/
def vecWrite (f : ℕ → ℚ) (k : ℕ) (v : ℚ) : ℕ → ℚ := fun j => if j = k then v else f j

/-- The size `reset_dimensions` gives `sol_chrono`:
`SKIP_CONTACTS_UV ? Resize(n + 3*m, 1) : Resize(n + m, 1)`. -/
def sol_chrono_length (skipContactsUV : Bool) (n m : ℕ) : ℕ :=
  if skipContactsUV then n + 3 * m else n + m

/-- `ChInteriorPoint::generate_solution`: copy `x` into rows `0..n-1`, then the
Lagrangian block gets `-lam` — as triplets `[-lam_i, 0, 0]` at rows
`n+3i, n+3i+1, n+3i+2` when `SKIP_CONTACTS_UV`, else `-lam_i` at row `n+i`. -/
def generate_solution (skipContactsUV : Bool) (n m : ℕ) (x lam : ℕ → ℚ)
    (sol0 : ℕ → ℚ) : ℕ → ℚ :=
  let s1 := (List.range n).foldl (fun s i => vecWrite s i (x i)) sol0
  if skipContactsUV then
    (List.range m).foldl
      (fun s i =>
        vecWrite (vecWrite (vecWrite s (n + 3 * i) (-lam i)) (n + 3 * i + 1) 0)
          (n + 3 * i + 2) 0) s1
  else
    (List.range m).foldl (fun s i => vecWrite s (n + i) (-lam i)) s1

theorem foldl_vecWrite_range_lt (x : ℕ → ℚ) (s0 : ℕ → ℚ) :
    ∀ n j, j < n → ((List.range n).foldl (fun s i => vecWrite s i (x i)) s0) j = x j := by
  intro n
  induction n with
  | zero => intro j h; omega
  | succ n ih =>
      intro j h
      rw [List.range_succ, List.foldl_append, List.foldl_cons, List.foldl_nil]
      show vecWrite _ n (x n) j = x j
      unfold vecWrite
      rcases Nat.lt_or_ge j n with h' | h'
      · rw [if_neg (by omega)]
        exact ih j h'
      · have hj : j = n := by omega
        subst hj
        rw [if_pos rfl]

theorem foldl_vecWrite_range_ge (x : ℕ → ℚ) (s0 : ℕ → ℚ) :
    ∀ n j, n ≤ j → ((List.range n).foldl (fun s i => vecWrite s i (x i)) s0) j = s0 j := by
  intro n
  induction n with
  | zero => intro j _; rfl
  | succ n ih =>
      intro j h
      rw [List.range_succ, List.foldl_append, List.foldl_cons, List.foldl_nil]
      show vecWrite _ n (x n) j = s0 j
      unfold vecWrite
      rw [if_neg (by omega)]
      exact ih j (by omega)

theorem foldl_triplet_untouched (lam : ℕ → ℚ) (n : ℕ) (s0 : ℕ → ℚ) :
    ∀ m j, j < n →
      ((List.range m).foldl
        (fun s i =>
          vecWrite (vecWrite (vecWrite s (n + 3 * i) (-lam i)) (n + 3 * i + 1) 0)
            (n + 3 * i + 2) 0) s0) j = s0 j := by
  intro m
  induction m with
  | zero => intro j _; rfl
  | succ m ih =>
      intro j h
      rw [List.range_succ, List.foldl_append, List.foldl_cons, List.foldl_nil]
      show vecWrite (vecWrite (vecWrite _ (n + 3 * m) (-lam m)) (n + 3 * m + 1) 0)
        (n + 3 * m + 2) 0 j = s0 j
      unfold vecWrite
      rw [if_neg (by omega), if_neg (by omega), if_neg (by omega)]
      exact ih j h

theorem foldl_triplet_values (lam : ℕ → ℚ) (n : ℕ) (s0 : ℕ → ℚ) :
    ∀ m i, i < m →
      (((List.range m).foldl
        (fun s k =>
          vecWrite (vecWrite (vecWrite s (n + 3 * k) (-lam k)) (n + 3 * k + 1) 0)
            (n + 3 * k + 2) 0) s0) (n + 3 * i) = -lam i ∧
       ((List.range m).foldl
        (fun s k =>
          vecWrite (vecWrite (vecWrite s (n + 3 * k) (-lam k)) (n + 3 * k + 1) 0)
            (n + 3 * k + 2) 0) s0) (n + 3 * i + 1) = 0 ∧
       ((List.range m).foldl
        (fun s k =>
          vecWrite (vecWrite (vecWrite s (n + 3 * k) (-lam k)) (n + 3 * k + 1) 0)
            (n + 3 * k + 2) 0) s0) (n + 3 * i + 2) = 0) := by
  intro m
  induction m with
  | zero => intro i h; omega
  | succ m ih =>
      intro i h
      rw [List.range_succ, List.foldl_append, List.foldl_cons, List.foldl_nil]
      rcases Nat.lt_or_ge i m with h' | h'
      · refine ⟨?_, ?_, ?_⟩ <;>
        · show vecWrite (vecWrite (vecWrite _ (n + 3 * m) (-lam m)) (n + 3 * m + 1) 0)
            (n + 3 * m + 2) 0 _ = _
          unfold vecWrite
          rw [if_neg (by omega), if_neg (by omega), if_neg (by omega)]
          first
            | exact (ih i h').1
            | exact (ih i h').2.1
            | exact (ih i h').2.2
      · have hi : i = m := by omega
        subst hi
        refine ⟨?_, ?_, ?_⟩ <;>
        · show vecWrite (vecWrite (vecWrite _ (n + 3 * i) (-lam i)) (n + 3 * i + 1) 0)
            (n + 3 * i + 2) 0 _ = _
          unfold vecWrite
          first
            | rw [if_neg (by omega), if_neg (by omega), if_pos rfl]
            | rw [if_neg (by omega), if_pos rfl]
            | rw [if_pos rfl]

theorem foldl_single_untouched (lam : ℕ → ℚ) (n : ℕ) (s0 : ℕ → ℚ) :
    ∀ m j, j < n →
      ((List.range m).foldl (fun s i => vecWrite s (n + i) (-lam i)) s0) j = s0 j := by
  intro m
  induction m with
  | zero => intro j _; rfl
  | succ m ih =>
      intro j h
      rw [List.range_succ, List.foldl_append, List.foldl_cons, List.foldl_nil]
      show vecWrite _ (n + m) (-lam m) j = s0 j
      unfold vecWrite
      rw [if_neg (by omega)]
      exact ih j h

theorem foldl_single_values (lam : ℕ → ℚ) (n : ℕ) (s0 : ℕ → ℚ) :
    ∀ m i, i < m →
      ((List.range m).foldl (fun s k => vecWrite s (n + k) (-lam k)) s0) (n + i) = -lam i := by
  intro m
  induction m with
  | zero => intro i h; omega
  | succ m ih =>
      intro i h
      rw [List.range_succ, List.foldl_append, List.foldl_cons, List.foldl_nil]
      show vecWrite _ (n + m) (-lam m) (n + i) = -lam i
      unfold vecWrite
      rcases Nat.lt_or_ge i m with h' | h'
      · rw [if_neg (by omega)]
        exact ih i h'
      · have hi : i = m := by omega
        subst hi
        rw [if_pos rfl]

/-! ### `ChCSR3Matrix` storage state and `GetNNZ`

Only the storage arrays and the inline accessors of the header are needed:
```cpp
int GetNNZ() const override { return GetTrailingIndexLength(); }
int GetTrailingIndexLength() const { return leadIndex[*leading_dimension]; }
```
-/

/-- The CSR3 storage arrays (`leading_dimension` is the number of rows when
row-major); `initialized_element[k]` flags whether slot `k` holds a real
element or is a free hole. -/
structure CsrState where
  leading_dimension : ℕ
  leadIndex : List ℕ
  trailIndex : List ℤ
  values : List ℚ
  initialized_element : List Bool

/-- `ChCSR3Matrix::GetTrailingIndexLength`, i.e. `leadIndex[*leading_dimension]`. -/
def GetTrailingIndexLength (s : CsrState) : ℕ := s.leadIndex.getD s.leading_dimension 0

/-- `ChCSR3Matrix::GetNNZ`: delegates to `GetTrailingIndexLength`. -/
def GetNNZ (s : CsrState) : ℕ := GetTrailingIndexLength s

/-- The number of initialized entries — the quantity the claim says `GetNNZ`
returns: the number of `true` flags in `initialized_element`. -/
def initializedCount (s : CsrState) : ℕ := s.initialized_element.count true

/-- Shape constraint for the used region of the arrays: `leadIndex` has
`leading_dimension + 1` entries and the flag array covers the slots up to
`leadIndex[leading_dimension]`. -/
def CsrWellSized (s : CsrState) : Prop :=
  s.leadIndex.length = s.leading_dimension + 1 ∧
  s.initialized_element.length = GetTrailingIndexLength s

/-- A 1-row matrix whose row window `[0, 2)` holds one initialized element and
one uninitialized hole (`trailIndex = -1`), as the gap-tolerant insertion
scheme produces before `Compress()`. -/
def csrWithHole : CsrState :=
  { leading_dimension := 1
    leadIndex := [0, 2]
    trailIndex := [0, -1]
    values := [5, 0]
    initialized_element := [true, false] }

/-- A compressed 1-row matrix with a single element and no holes. -/
def csrCompressed : CsrState :=
  { leading_dimension := 1
    leadIndex := [0, 1]
    trailIndex := [0]
    values := [7]
    initialized_element := [true] }

/-! ### `ChSparsityPatternLearner`

```cpp
void SetElement(int insrow, int inscol, double insval, bool overwrite) override
{ row_lists[insrow].push_back(inscol); }
std::vector<std::list<int>>& GetSparsityPattern()
{ for (...) { list_iter->sort(); list_iter->unique(); } return row_lists; }
int GetNNZ() const override { nnz_temp += list_iter->size(); ... }
```
`row_lists` is modelled as a function from row index to the accumulated list;
`std::list::sort` is a comparison sort (modelled by `List.insertionSort (≤)`)
and `std::list::unique` removes consecutive equal elements (`List.destutter (≠)`). -/

/-- State of a `ChSparsityPatternLearner` (row-major). -/
structure SparsityLearner where
  leading_dim : ℕ
  row_lists : ℕ → List ℤ

/-- A fresh learner with empty row lists. -/
def learnerInit (L : ℕ) : SparsityLearner := { leading_dim := L, row_lists := fun _ => [] }

/-- `ChSparsityPatternLearner::SetElement`: append `inscol` to `row_lists[insrow]`
(the value and overwrite arguments are ignored). -/
def learnerSetElement (s : SparsityLearner) (insrow : ℕ) (inscol : ℤ) : SparsityLearner :=
  { s with row_lists := fun r => if r = insrow then s.row_lists r ++ [inscol] else s.row_lists r }

/-- `sort()` then `unique()` on one row list. -/
def sortUnique (l : List ℤ) : List ℤ :=
  (List.insertionSort (· ≤ ·) l).destutter (· ≠ ·)

/-- `ChSparsityPatternLearner::GetSparsityPattern`: sorts and uniques every row
list in place and returns the (mutated) lists. -/
def learnerGetSparsityPattern (s : SparsityLearner) : SparsityLearner :=
  { s with row_lists := fun r => sortUnique (s.row_lists r) }

/-- `ChSparsityPatternLearner::GetNNZ`: the sum of the row-list sizes. -/
def learnerGetNNZ (s : SparsityLearner) : ℕ :=
  ((List.range s.leading_dim).map (fun r => (s.row_lists r).length)).sum

/-- The learner after a sequence of `SetElement(r, c, *, *)` calls. -/
def learnerOfOps (L : ℕ) (ops : List (ℕ × ℤ)) : SparsityLearner :=
  ops.foldl (fun s p => learnerSetElement s p.1 p.2) (learnerInit L)

/-- The columns inserted at row `r`, in call order. -/
def colsAt (r : ℕ) (ops : List (ℕ × ℤ)) : List ℤ :=
  ops.filterMap (fun p => if p.1 = r then some p.2 else none)

theorem foldl_learnerSetElement_row (ops : List (ℕ × ℤ)) :
    ∀ (init : SparsityLearner) (r : ℕ),
      (ops.foldl (fun s p => learnerSetElement s p.1 p.2) init).row_lists r =
        init.row_lists r ++ colsAt r ops := by
  induction ops with
  | nil => intro init r; simp [colsAt]
  | cons p t ih =>
      intro init r
      rw [List.foldl_cons, ih]
      unfold colsAt learnerSetElement
      rw [List.filterMap_cons]
      by_cases h : p.1 = r
      · subst h
        simp
      · have h' : ¬r = p.1 := fun hc => h hc.symm
        simp [h, h']

theorem learnerOfOps_row (L : ℕ) (ops : List (ℕ × ℤ)) (r : ℕ) :
    (learnerOfOps L ops).row_lists r = colsAt r ops := by
  unfold learnerOfOps
  rw [foldl_learnerSetElement_row]
  rfl

theorem foldl_learnerSetElement_dim (ops : List (ℕ × ℤ)) :
    ∀ init : SparsityLearner,
      (ops.foldl (fun s p => learnerSetElement s p.1 p.2) init).leading_dim =
        init.leading_dim := by
  induction ops with
  | nil => intro init; rfl
  | cons p t ih =>
      intro init
      rw [List.foldl_cons, ih]
      rfl

theorem learnerOfOps_dim (L : ℕ) (ops : List (ℕ × ℤ)) :
    (learnerOfOps L ops).leading_dim = L := by
  unfold learnerOfOps
  rw [foldl_learnerSetElement_dim]
  rfl

theorem mem_colsAt (r : ℕ) (c : ℤ) (ops : List (ℕ × ℤ)) :
    c ∈ colsAt r ops ↔ (r, c) ∈ ops := by
  unfold colsAt
  rw [List.mem_filterMap]
  constructor
  · rintro ⟨p, hp, hpc⟩
    by_cases h : p.1 = r
    · rw [if_pos h] at hpc
      have hc : p.2 = c := Option.some.inj hpc
      have : p = (r, c) := Prod.ext h hc
      rw [← this]; exact hp
    · rw [if_neg h] at hpc; cases hpc
  · intro h
    exact ⟨(r, c), h, by simp⟩

theorem mem_destutter'_ne :
    ∀ (l : List ℤ) (a x : ℤ), x ∈ a :: l → x ∈ List.destutter' (· ≠ ·) a l := by
  intro l
  induction l with
  | nil =>
      intro a x hx
      simpa [List.destutter'] using (by simpa using hx : x = a)
  | cons b t ih =>
      intro a x hx
      rw [List.destutter'_cons]
      by_cases hab : a ≠ b
      · rw [if_pos hab]
        rcases List.mem_cons.mp hx with rfl | hx'
        · exact List.mem_cons_self _ _
        · exact List.mem_cons_of_mem _ (ih b x hx')
      · rw [if_neg hab]
        have hba : a = b := not_not.mp hab
        apply ih a x
        rcases List.mem_cons.mp hx with rfl | hx'
        · exact List.mem_cons_self _ _
        · rcases List.mem_cons.mp hx' with rfl | hx''
          · rw [hba]; exact List.mem_cons_self _ _
          · exact List.mem_cons_of_mem _ hx''

theorem pairwise_lt_destutter' :
    ∀ (l : List ℤ) (a : ℤ), (a :: l).Sorted (· ≤ ·) →
      (List.destutter' (· ≠ ·) a l).Pairwise (· < ·) := by
  intro l
  induction l with
  | nil =>
      intro a _
      simp [List.destutter']
  | cons b t ih =>
      intro a hs
      have hab : a ≤ b := (List.sorted_cons.mp hs).1 b (List.mem_cons_self _ _)
      have hbt : (b :: t).Sorted (· ≤ ·) := (List.sorted_cons.mp hs).2
      rw [List.destutter'_cons]
      by_cases hne : a ≠ b
      · rw [if_pos hne]
        refine List.pairwise_cons.mpr ⟨?_, ih b hbt⟩
        intro x hx
        have hxbt : x ∈ b :: t := (List.destutter'_sublist _ _ _).mem hx
        have hbx : b ≤ x := by
          rcases List.mem_cons.mp hxbt with rfl | hx'
          · exact le_rfl
          · exact (List.sorted_cons.mp hbt).1 x hx'
        exact lt_of_lt_of_le (lt_of_le_of_ne hab hne) hbx
      · rw [if_neg hne]
        apply ih a
        refine List.sorted_cons.mpr ⟨?_, (List.sorted_cons.mp hbt).2⟩
        intro x hx
        exact le_trans hab ((List.sorted_cons.mp hbt).1 x hx)

/-- The sorted-and-uniqued row list is strictly ascending. -/
theorem sortUnique_pairwise_lt (l : List ℤ) : (sortUnique l).Pairwise (· < ·) := by
  unfold sortUnique
  rcases h : List.insertionSort (· ≤ ·) l with _ | ⟨a, t⟩
  · simp [List.destutter]
  · have hs : (a :: t).Sorted (· ≤ ·) := by
      rw [← h]; exact List.sorted_insertionSort _ l
    rw [List.destutter_cons']
    exact pairwise_lt_destutter' t a hs

/-- Sorting and uniquing changes no memberships. -/
theorem mem_sortUnique (l : List ℤ) (x : ℤ) : x ∈ sortUnique l ↔ x ∈ l := by
  unfold sortUnique
  constructor
  · intro hx
    have h1 : x ∈ List.insertionSort (· ≤ ·) l := (List.destutter_sublist _ _).mem hx
    exact (List.perm_insertionSort _ l).mem_iff.mp h1
  · intro hx
    have h1 : x ∈ List.insertionSort (· ≤ ·) l := (List.perm_insertionSort _ l).mem_iff.mpr hx
    rcases h : List.insertionSort (· ≤ ·) l with _ | ⟨a, t⟩
    · rw [h] at h1; cases h1
    · rw [h] at h1
      rw [List.destutter_cons']
      exact mem_destutter'_ne t a x h1

theorem sortUnique_nodup (l : List ℤ) : (sortUnique l).Nodup :=
  (sortUnique_pairwise_lt l).imp (fun h => ne_of_lt h)

theorem sortUnique_toFinset (l : List ℤ) : (sortUnique l).toFinset = l.toFinset := by
  ext x
  rw [List.mem_toFinset, List.mem_toFinset, mem_sortUnique]

theorem sum_range_list (f : ℕ → ℕ) :
    ∀ n, ∑ r ∈ Finset.range n, f r = ((List.range n).map f).sum := by
  intro n
  induction n with
  | zero => rfl
  | succ n ih =>
      rw [Finset.sum_range_succ, List.range_succ, List.map_append, List.sum_append]
      simp [ih]

/-- The length of a sorted-unique row list is the number of distinct pairs
inserted at that row. -/
theorem sortUnique_colsAt_length (r : ℕ) (ops : List (ℕ × ℤ)) :
    (sortUnique (colsAt r ops)).length = (ops.toFinset.filter (fun p => p.1 = r)).card := by
  rw [← List.toFinset_card_of_nodup (sortUnique_nodup _), sortUnique_toFinset]
  have himg : (ops.toFinset.filter (fun p => p.1 = r)).image Prod.snd =
      (colsAt r ops).toFinset := by
    ext c
    rw [Finset.mem_image, List.mem_toFinset, mem_colsAt]
    constructor
    · rintro ⟨p, hp, hpc⟩
      obtain ⟨hpo, hpr⟩ := Finset.mem_filter.mp hp
      have : p = (r, c) := Prod.ext hpr hpc
      rw [← this]; exact List.mem_toFinset.mp hpo
    · intro h
      exact ⟨(r, c), Finset.mem_filter.mpr ⟨List.mem_toFinset.mpr h, rfl⟩, rfl⟩
  have hinj : Set.InjOn Prod.snd ((ops.toFinset.filter (fun p => p.1 = r)) : Set (ℕ × ℤ)) := by
    intro p hp q hq hpq
    have hp' := Finset.mem_filter.mp (by exact_mod_cast hp)
    have hq' := Finset.mem_filter.mp (by exact_mod_cast hq)
    exact Prod.ext (hp'.2.trans hq'.2.symm) hpq
  rw [← himg, Finset.card_image_of_injOn hinj]

/-- Fiberwise counting: the distinct inserted pairs, summed over the rows. -/
theorem sum_sortUnique_lengths (L : ℕ) (ops : List (ℕ × ℤ)) (h : ∀ p ∈ ops, p.1 < L) :
    ((List.range L).map (fun r => (sortUnique (colsAt r ops)).length)).sum =
      ops.toFinset.card := by
  have hfib : ops.toFinset.card =
      ∑ r ∈ Finset.range L, (ops.toFinset.filter (fun p => p.1 = r)).card := by
    apply Finset.card_eq_sum_card_fiberwise
    intro p hp
    exact Finset.mem_range.mpr (h p (List.mem_toFinset.mp hp))
  rw [hfib, sum_range_list]
  congr 1
  apply List.map_congr_left
  intro r _
  exact sortUnique_colsAt_length r ops

/-! ### `ChInteriorPoint::Solve` tolerance overwrite (chrono_mumps, lines 61-94)

```cpp
if (m == 0) { ...; return 0; }      // loop never reached
SetTolerances(1e-7, 1e-8, 1e-8);    // IPtolerances.rp_nnorm, .rd_nnorm, mu_tolerance
for (iteration_count = 1; ...)
```
-/

/-- `ChInteriorPoint::SetTolerances(rp_tol, rd_tol, complementarity_tol)`. -/
def SetTolerances (rp_tol rd_tol complementarity_tol : ℚ) (t : IPtol) : IPtol :=
  { t with rp_nnorm := rp_tol, rd_nnorm := rd_tol, mu_tolerance := complementarity_tol }

/-- The tolerance state with which a `Solve` call enters the iteration loop:
`none` when `m = 0` (the loop is never reached), otherwise the result of the
hard-coded `SetTolerances(1e-7, 1e-8, 1e-8)` call. -/
def solve_loop_tolerances (m : ℕ) (t : IPtol) : Option IPtol :=
  if m = 0 then none
  else some (SetTolerances (1 / 10000000) (1 / 100000000) (1 / 100000000) t)

/-- The step length as worded by the claim: `eta` times the largest scalar
`α ∈ (0, 1]` such that `v + α·Δv ≥ 0` componentwise — that largest feasible
scalar is the minimum of `1` and the exact caps `-v_i/Δv_i` over the
components with `Δv_i < 0` (the cap at `1` applied before multiplying by
`eta`). -/
def newtonStepLengthClaim (vect Dvect : List ℚ) (eta : ℚ) : ℚ :=
  eta * ((((vect.zip Dvect).filter fun p => decide (p.2 < 0)).map (stepBound 1)).foldr min 1)

/-! ## The claims -/

/-- C1 counterexample: with `y = lam = (1,1)` (so `m = 2`, `yᵀlam = 2`,
`mu = 1`), zero residuals and `muTol = 3/2`, the claimed exit test
(`mu < muTol`) holds but `check_exit_conditions` is false, because the code
compares the raw duality gap `yᵀlam` — not `mu = yᵀlam/m` — against
`mu_tolerance`. -/
theorem C1_counterexample :
    check_exit_claim [1, 1] [1, 1] [0, 0] [0] 1 2 ⟨1, 1, 3 / 2⟩ ∧
    ¬ check_exit_conditions [1, 1] [1, 1] [0, 0] [0] 1 2 ⟨1, 1, 3 / 2⟩ := by
  have hdot : dot [1, 1] [1, 1] = 2 := by norm_num [dot]
  have hrp : rp_nnorm_res [0, 0] 2 = 0 := by
    norm_num [rp_nnorm_res, NormTwo, sumSq]
  have hrd : rd_nnorm_res [0] 1 = 0 := by
    norm_num [rd_nnorm_res, NormTwo, sumSq]
  constructor
  · refine ⟨?_, ?_, ?_⟩
    · rw [hdot]; norm_num
    · rw [hrp]; norm_num
    · rw [hrd]; norm_num
  · intro hc
    have := hc.1
    rw [relative_duality_gap, hdot] at this
    norm_num at this

/-- C1 (amended): a run of the outer loop
`for (it = 1; it < iteration_count_max && !check_exit_conditions(); it++)`
stops before the iteration cap exactly when the raw duality gap
`yᵀlam = mu·m` — not `mu` itself — is below `mu_tolerance` while
`‖rp‖₂/m < rpTol` and `‖rd‖₂/n < rdTol`. -/
theorem C1_exit_test_amended (y lam rp rd : List ℚ) (n m : ℕ) (tol : IPtol)
    (hm : 0 < m) :
    check_exit_conditions y lam rp rd n m tol ↔
      (((dot y lam / (m : ℚ) : ℚ) : ℝ) * (m : ℝ) < ((tol.mu_tolerance : ℚ) : ℝ) ∧
       rp_nnorm_res rp m < ((tol.rp_nnorm : ℚ) : ℝ) ∧
       rd_nnorm_res rd n < ((tol.rd_nnorm : ℚ) : ℝ)) := by
  have hm' : ((m : ℚ) : ℝ) ≠ 0 := by
    have : (m : ℚ) ≠ 0 := Nat.cast_ne_zero.mpr (by omega)
    exact_mod_cast this
  have key : ((dot y lam / (m : ℚ) : ℚ) : ℝ) * (m : ℝ) = ((dot y lam : ℚ) : ℝ) := by
    push_cast
    field_simp
  unfold check_exit_conditions relative_duality_gap
  rw [key]

/-- C1 witness: the amended equivalence instantiated at the counterexample
inputs (with `m = 2 > 0`). -/
theorem C1_witness :
    0 < 2 ∧
      (check_exit_conditions [1, 1] [1, 1] [0, 0] [0] 1 2 ⟨1, 1, 3 / 2⟩ ↔
        (((dot [1, 1] [1, 1] / ((2 : ℕ) : ℚ) : ℚ) : ℝ) * ((2 : ℕ) : ℝ) <
            (((3 / 2 : ℚ) : ℚ) : ℝ) ∧
         rp_nnorm_res [0, 0] 2 < (((1 : ℚ) : ℚ) : ℝ) ∧
         rd_nnorm_res [0] 1 < (((1 : ℚ) : ℚ) : ℝ))) :=
  ⟨by norm_num, C1_exit_test_amended [1, 1] [1, 1] [0, 0] [0] 1 2 ⟨1, 1, 3 / 2⟩ (by norm_num)⟩

/-- C2 counterexample: a 1-row matrix with one initialized slot and one
uninitialized hole has `GetNNZ() = leadIndex[1] = 2` although only one entry
is initialized — `GetNNZ` counts the hole, contradicting the claim. -/
theorem C2_counterexample :
    GetNNZ csrWithHole = 2 ∧ initializedCount csrWithHole = 1 ∧
      GetNNZ csrWithHole ≠ initializedCount csrWithHole := by
  refine ⟨rfl, rfl, ?_⟩
  decide

/-- C2 (amended): `GetNNZ()` returns `leadIndex[L]` (the trailing-index
length) unconditionally; when the flag array covers exactly the used slots it
equals the number of initialized entries if and only if every used slot is
initialized (i.e. the matrix has no holes — it is compressed). -/
theorem C2_getnnz_amended (s : CsrState) (h : CsrWellSized s) :
    GetNNZ s = GetTrailingIndexLength s ∧
      (GetNNZ s = initializedCount s ↔ ∀ fl ∈ s.initialized_element, fl = true) := by
  refine ⟨rfl, ?_⟩
  unfold GetNNZ initializedCount
  rw [← h.2, eq_comm, List.count_eq_length]
  constructor
  · intro h' fl hfl; exact (h' fl hfl).symm
  · intro h' fl hfl; exact (h' fl hfl).symm

/-- C2 witness: the amended statement at a compressed one-element matrix. -/
theorem C2_witness :
    GetNNZ csrCompressed = GetTrailingIndexLength csrCompressed ∧
      (GetNNZ csrCompressed = initializedCount csrCompressed ↔
        ∀ fl ∈ csrCompressed.initialized_element, fl = true) :=
  C2_getnnz_amended csrCompressed ⟨rfl, rfl⟩

/-- C3 counterexample: for `v = (10)`, `Δv = (-1)`, `eta = 1/2` the largest
feasible scalar in `(0, 1]` is `1`, so the claim predicts `eta * 1 = 1/2`;
the code caps the `eta`-scaled candidate `5` at `1` and returns `1`. -/
theorem C3_counterexample :
    find_Newton_step_length [10] [-1] (1 / 2) = 1 ∧
    newtonStepLengthClaim [10] [-1] (1 / 2) = 1 / 2 ∧
    find_Newton_step_length [10] [-1] (1 / 2) ≠
      newtonStepLengthClaim [10] [-1] (1 / 2) := by
  refine ⟨?_, ?_, ?_⟩ <;>
    norm_num [find_Newton_step_length, newtonStepLengthClaim, stepFold, stepBound]

/-- C3 (amended): `findNewtonStepLength(v, Δv, eta)` returns
`max(0, min(1, min_i over Δv_i < 0 of (-eta·v_i/Δv_i)))`: the factor `eta`
multiplies each componentwise cap before the cap at `1` is applied (not
after), and the result is clamped at `0` — it is `0`, not strictly positive,
whenever some ratio is nonpositive. -/
theorem C3_step_length_amended (vect Dvect : List ℚ) (eta : ℚ) :
    find_Newton_step_length vect Dvect eta = newtonStepFormula vect Dvect eta ∧
    0 ≤ find_Newton_step_length vect Dvect eta ∧
    find_Newton_step_length vect Dvect eta ≤ 1 :=
  ⟨find_Newton_step_length_eq vect Dvect eta,
   find_Newton_step_length_nonneg vect Dvect eta,
   find_Newton_step_length_le_one vect Dvect eta⟩

/-- C4: componentwise positivity of `y` and `lam` is preserved by the state
update of `iterate()` — with step lengths from `find_Newton_step_length`
(optionally equalized) and `eta < 1`, the updated vectors
`y + alfa_corr_prim*Dy` and `lam + alfa_corr_dual*Dlam` stay positive for
arbitrary directions `Dy`, `Dlam`. -/
theorem C4_positivity_invariant (equalStepLength : Bool) (y lam Dy Dlam : List ℚ)
    (eta : ℚ) (heta : eta < 1) (hy : ∀ v ∈ y, 0 < v) (hlam : ∀ v ∈ lam, 0 < v) :
    (∀ q ∈ y_corr equalStepLength y lam Dy Dlam eta, 0 < q) ∧
    (∀ q ∈ lam_corr equalStepLength y lam Dy Dlam eta, 0 < q) := by
  have hpn := find_Newton_step_length_nonneg y Dy eta
  have hdn := find_Newton_step_length_nonneg lam Dlam eta
  constructor
  · unfold y_corr
    refine step_update_pos heta hy ?_ ?_
    · unfold alfa_corr_prim
      cases equalStepLength
      · simpa using hpn
      · simpa using le_min hpn hdn
    · unfold alfa_corr_prim
      cases equalStepLength
      · simp
      · simp only [if_pos rfl]
        exact min_le_left _ _
  · unfold lam_corr
    refine step_update_pos heta hlam ?_ ?_
    · unfold alfa_corr_dual
      cases equalStepLength
      · simpa using hdn
      · simpa using le_min hpn hdn
    · unfold alfa_corr_dual
      cases equalStepLength
      · simp
      · simp only [if_pos rfl]
        exact min_le_right _ _

/-- C4 witness: one concrete corrector step with `y = (1)`, `lam = (2)`,
`Dy = (-1)`, `Dlam = (-4)`, `eta = 1/2`. -/
theorem C4_witness :
    (∀ q ∈ y_corr false [1] [2] [-1] [-4] (1 / 2), 0 < q) ∧
    (∀ q ∈ lam_corr false [1] [2] [-1] [-4] (1 / 2), 0 < q) :=
  C4_positivity_invariant false [1] [2] [-1] [-4] (1 / 2) (by norm_num)
    (by intro v hv; rw [List.mem_singleton] at hv; rw [hv]; norm_num)
    (by intro v hv; rw [List.mem_singleton] at hv; rw [hv]; norm_num)

/-- C5: `starting_point_Nocedal` performs exactly the claimed sequence —
`x ← 1`, `lam ← 1`, `y ← A·x - b`, full residual update, affine solve,
`y += Dy`, `lam += Dlam`, the clamps `y_i ← max(|y_i|, 1)` and
`lam_i ← max(|lam_i|, 1)`, final residual recomputation — and afterwards every
component of `y` and `lam` is at least `1`, and `x` is the all-ones vector. -/
theorem C5_starting_point (G A negAT : List (List ℚ)) (b c : List ℚ) (n m : ℕ)
    (sol : List ℚ) :
    starting_point_Nocedal G A negAT b c n m sol =
      starting_point_Nocedal_spec G A negAT b c n m sol ∧
    (starting_point_Nocedal G A negAT b c n m sol).x = List.replicate n 1 ∧
    (∀ q ∈ (starting_point_Nocedal G A negAT b c n m sol).y, 1 ≤ q) ∧
    (∀ q ∈ (starting_point_Nocedal G A negAT b c n m sol).lam, 1 ≤ q) := by
  refine ⟨?_, rfl, ?_, ?_⟩
  · unfold starting_point_Nocedal starting_point_Nocedal_spec nocedal_y_clamped
      nocedal_lam_clamped
    simp only [clamp_eq_max]
  · exact clamp_map_ge_one _
  · exact clamp_map_ge_one _

/-- C6: in the AUGMENTED branch of `KKTsolve`, before the linear solve the
`(n+i, n+i)` diagonal entry is refreshed to `y_i/lam_i` (plus `E_ii` when
compliance is enabled) for every `i < m`, and the right-hand side is
`[-rd ; -rp - y + sigma*mu/lam]` componentwise — with the `sigma*mu/lam` term
vanishing in the predictor solve, where `sigma = 0`. -/
theorem C6_kkt_augmented (M : ℕ → ℕ → ℚ) (n m : ℕ) (y lam Ediag rd rp : ℕ → ℚ)
    (addCompliance : Bool) (sigma mu : ℚ) :
    (∀ i, i < m →
      KKT_aug_diag_update M n m y lam Ediag addCompliance (n + i) (n + i) =
        y i / lam i + (if addCompliance then Ediag i else 0)) ∧
    (∀ j, j < n → (KKT_aug_rhs n m rd rp y lam sigma mu).getD j 0 = -rd j) ∧
    (∀ i, i < m → (KKT_aug_rhs n m rd rp y lam sigma mu).getD (n + i) 0 =
        -rp i - y i + sigma * mu / lam i) := by
  refine ⟨?_, ?_, ?_⟩
  · intro i hi
    unfold KKT_aug_diag_update
    cases addCompliance
    · simpa using foldl_matSetElement_diag M n (fun k => y k / lam k) m i hi
    · simpa using foldl_matSetElement_diag M n (fun k => y k / lam k + Ediag k) m i hi
  · intro j hj
    unfold KKT_aug_rhs
    rw [List.getD_eq_getElem?_getD, List.getElem?_append]
    simp only [List.length_map, List.length_range]
    rw [if_pos hj]
    simp [List.getElem?_map, List.getElem?_range hj]
  · intro i hi
    unfold KKT_aug_rhs
    rw [List.getD_eq_getElem?_getD, List.getElem?_append]
    simp only [List.length_map, List.length_range]
    rw [if_neg (by omega)]
    have hni : n + i - n = i := by omega
    rw [hni]
    by_cases hs : sigma = 0
    · subst hs
      simp [List.getElem?_map, List.getElem?_range hi]
    · simp [hs, List.getElem?_map, List.getElem?_range hi]

/-- C6 witness: `n = m = 1`, `y₀ = 4`, `lam₀ = 2`, `rd₀ = 3`, `rp₀ = 5`,
`sigma = mu = 1`, no compliance: the diagonal becomes `2` and the RHS is
`(-3, -17/2)`. -/
theorem C6_witness :
    KKT_aug_diag_update (fun _ _ => 0) 1 1 (fun _ => 4) (fun _ => 2) (fun _ => 0)
        false (1 + 0) (1 + 0) = 2 ∧
    (KKT_aug_rhs 1 1 (fun _ => 3) (fun _ => 5) (fun _ => 4) (fun _ => 2) 1 1).getD 0 0 = -3 ∧
    (KKT_aug_rhs 1 1 (fun _ => 3) (fun _ => 5) (fun _ => 4) (fun _ => 2) 1 1).getD (1 + 0) 0 =
      -(17 / 2) := by
  have h := C6_kkt_augmented (fun _ _ => 0) 1 1 (fun _ => 4) (fun _ => 2) (fun _ => 0)
    (fun _ => 3) (fun _ => 5) false 1 1
  exact ⟨(h.1 0 one_pos).trans (by norm_num), (h.2.1 0 one_pos).trans (by norm_num),
    (h.2.2 0 one_pos).trans (by norm_num)⟩

/-- C7: with `ONLY_PREDICT` enabled the chrono_mumps `iterate()` still runs the
correction phase — the block lacks the early return of the chrono_mkl variant —
so after the predictor has already committed `y = y_pred = (1)`, the corrector
updates the state again and the iteration ends with `y = (2) ≠ y_pred`. -/
theorem C7_corrector_not_skipped :
    (iterate_mumps true false [[1]] [[1]] 1 1 (1 / 2) [0, 0] [1, -(1 / 2)]
        { x := [1], y := [1], lam := [1], rp := [0], rd := [0], mu := 1 }).correctorExecuted
      = true ∧
    (predictor_phase true false [[1]] [[1]] 1 1 [0, 0]
        { x := [1], y := [1], lam := [1], rp := [0], rd := [0], mu := 1 }).y = [1] ∧
    (iterate_mumps true false [[1]] [[1]] 1 1 (1 / 2) [0, 0] [1, -(1 / 2)]
        { x := [1], y := [1], lam := [1], rp := [0], rd := [0], mu := 1 }).state.y = [2] := by
  refine ⟨rfl, ?_, ?_⟩
  · norm_num [predictor_phase, KKT_Dy, KKT_Dlam, matVec, dot, vadd, vscale, vsub,
      find_Newton_step_length, stepFold, stepBound]
  · norm_num [iterate_mumps, correction_phase, predictor_phase, KKT_Dy, KKT_Dlam,
      matVec, dot, vadd, vscale, vsub, find_Newton_step_length, stepFold, stepBound]

/-- C8: the emitted solution vector holds `x` in rows `0..n-1`; with
`SKIP_CONTACTS_UV` it has length `n + 3m` and the Lagrangian block is the
interleaved triplets `[-lam_i, 0, 0]` at rows `n+3i, n+3i+1, n+3i+2`;
otherwise it has length `n + m` with `-lam_i` at row `n+i`. -/
theorem C8_generate_solution (n m : ℕ) (x lam : ℕ → ℚ) (sol0 : ℕ → ℚ) :
    sol_chrono_length true n m = n + 3 * m ∧
    sol_chrono_length false n m = n + m ∧
    (∀ j, j < n → generate_solution true n m x lam sol0 j = x j) ∧
    (∀ i, i < m →
      generate_solution true n m x lam sol0 (n + 3 * i) = -lam i ∧
      generate_solution true n m x lam sol0 (n + 3 * i + 1) = 0 ∧
      generate_solution true n m x lam sol0 (n + 3 * i + 2) = 0) ∧
    (∀ j, j < n → generate_solution false n m x lam sol0 j = x j) ∧
    (∀ i, i < m → generate_solution false n m x lam sol0 (n + i) = -lam i) := by
  refine ⟨rfl, rfl, ?_, ?_, ?_, ?_⟩
  · intro j hj
    show ((List.range m).foldl
      (fun s i => vecWrite (vecWrite (vecWrite s (n + 3 * i) (-lam i)) (n + 3 * i + 1) 0)
        (n + 3 * i + 2) 0)
      ((List.range n).foldl (fun s i => vecWrite s i (x i)) sol0)) j = x j
    rw [foldl_triplet_untouched lam n _ m j hj, foldl_vecWrite_range_lt x sol0 n j hj]
  · intro i hi
    exact foldl_triplet_values lam n _ m i hi
  · intro j hj
    show ((List.range m).foldl (fun s i => vecWrite s (n + i) (-lam i))
      ((List.range n).foldl (fun s i => vecWrite s i (x i)) sol0)) j = x j
    rw [foldl_single_untouched lam n _ m j hj, foldl_vecWrite_range_lt x sol0 n j hj]
  · intro i hi
    exact foldl_single_values lam n _ m i hi

/-- C8 witness: `n = m = 1` with `x₀ = 9`, `lam₀ = 4`. -/
theorem C8_witness :
    generate_solution true 1 1 (fun _ => 9) (fun _ => 4) (fun _ => 0) 0 = 9 ∧
    generate_solution true 1 1 (fun _ => 9) (fun _ => 4) (fun _ => 0) (1 + 3 * 0) = -4 ∧
    generate_solution false 1 1 (fun _ => 9) (fun _ => 4) (fun _ => 0) (1 + 0) = -4 := by
  have h := C8_generate_solution 1 1 (fun _ => 9) (fun _ => 4) (fun _ => 0)
  exact ⟨h.2.2.1 0 one_pos, (h.2.2.2.1 0 one_pos).1, h.2.2.2.2.2 0 one_pos⟩

/-- C9: after any sequence of `SetElement(r, c, *, *)` calls (with `r` in
range), `GetSparsityPattern()` yields for every row a strictly ascending list
whose members are exactly the columns inserted at that row, and `GetNNZ()` on
the mutated learner equals the sum of the list lengths, which is the number of
distinct `(row, col)` pairs inserted. -/
theorem C9_sparsity_pattern (L : ℕ) (ops : List (ℕ × ℤ))
    (hrows : ∀ p ∈ ops, p.1 < L) :
    (∀ r : ℕ,
      ((learnerGetSparsityPattern (learnerOfOps L ops)).row_lists r).Pairwise (· < ·)) ∧
    (∀ (r : ℕ) (c : ℤ),
      c ∈ (learnerGetSparsityPattern (learnerOfOps L ops)).row_lists r ↔ (r, c) ∈ ops) ∧
    learnerGetNNZ (learnerGetSparsityPattern (learnerOfOps L ops)) =
      ops.toFinset.card := by
  have hrow : ∀ r, (learnerGetSparsityPattern (learnerOfOps L ops)).row_lists r =
      sortUnique (colsAt r ops) := by
    intro r
    show sortUnique ((learnerOfOps L ops).row_lists r) = _
    rw [learnerOfOps_row]
  refine ⟨?_, ?_, ?_⟩
  · intro r
    rw [hrow]
    exact sortUnique_pairwise_lt _
  · intro r c
    rw [hrow, mem_sortUnique, mem_colsAt]
  · have hdim : (learnerGetSparsityPattern (learnerOfOps L ops)).leading_dim = L := by
      show (learnerOfOps L ops).leading_dim = L
      exact learnerOfOps_dim L ops
    unfold learnerGetNNZ
    rw [hdim]
    rw [← sum_sortUnique_lengths L ops hrows]
    congr 1
    apply List.map_congr_left
    intro r _
    rw [hrow]

/-- C9 witness: four insertions with one duplicate over two rows. -/
theorem C9_witness :
    learnerGetNNZ (learnerGetSparsityPattern
        (learnerOfOps 2 [(0, 5), (0, 5), (1, 3), (0, 2)])) =
      ([(0, 5), (0, 5), (1, 3), (0, 2)] : List (ℕ × ℤ)).toFinset.card ∧
    ((5 : ℤ) ∈ (learnerGetSparsityPattern
        (learnerOfOps 2 [(0, 5), (0, 5), (1, 3), (0, 2)])).row_lists 0 ↔
      ((0 : ℕ), (5 : ℤ)) ∈ ([(0, 5), (0, 5), (1, 3), (0, 2)] : List (ℕ × ℤ))) := by
  have h := C9_sparsity_pattern 2 [(0, 5), (0, 5), (1, 3), (0, 2)] (by decide)
  exact ⟨h.2.2, h.2.1 0 5⟩

/-- C10: whenever `Solve` reaches the iteration loop (`m ≠ 0`), the tolerance
state entering the loop is the hard-coded
`SetTolerances(1e-7, 1e-8, 1e-8)` result, independent of any previously
configured tolerances. -/
theorem C10_tolerance_overwrite (m : ℕ) (t t' : IPtol) (hm : m ≠ 0) :
    solve_loop_tolerances m t =
      some { rp_nnorm := 1 / 10000000, rd_nnorm := 1 / 100000000,
             mu_tolerance := 1 / 100000000 } ∧
    solve_loop_tolerances m t = solve_loop_tolerances m t' := by
  unfold solve_loop_tolerances SetTolerances
  rw [if_neg hm]
  exact ⟨rfl, rfl⟩

/-- C10 witness: two different prior tolerance settings, `m = 1`. -/
theorem C10_witness :
    solve_loop_tolerances 1 ⟨5, 5, 5⟩ =
      some { rp_nnorm := 1 / 10000000, rd_nnorm := 1 / 100000000,
             mu_tolerance := 1 / 100000000 } ∧
    solve_loop_tolerances 1 ⟨5, 5, 5⟩ = solve_loop_tolerances 1 ⟨7, 7, 7⟩ :=
  C10_tolerance_overwrite 1 ⟨5, 5, 5⟩ ⟨7, 7, 7⟩ one_ne_zero

end Chrono
